import Mathlib

/-!
Shallow embedding of the expense-tracker core of src/app.py.

The program keeps expense records in a flat CSV file (one record per line,
three comma-separated fields: date, category, amount).  The functions
modelled here are, with their source names kept:

  - add_expense        : validate a candidate record and append one CSV line;
  - load_expenses      : pd.read_csv + dropna + to_numeric / to_datetime
                         (errors coerce) + dropna, over the whole file;
  - create_monthly_summary, create_category_summary : pandas groupby sums;
  - the date-range filter applied in main (inclusive bounds).

Machine reals (Python floats) are modelled as exact rationals: every amount
the program writes is a float whose repr is a plain decimal, and the
rendering str() applies to it is modelled by the minimal decimal expansion
with at least one fraction digit (decExp / renderAmount below).  Strings are
modelled as lists of characters; a file is a list of lines (the text between
newline separators).
-/

set_option maxRecDepth 4000

attribute [local semireducible] Rat.add Rat.mul Rat.inv Rat.sub

/-- The decimal digit characters, as Python renders the digits 0..9. -/
def digitChar : Nat → Char
  | 0 => '0' | 1 => '1' | 2 => '2' | 3 => '3' | 4 => '4'
  | 5 => '5' | 6 => '6' | 7 => '7' | 8 => '8' | _ => '9'

/-- Numeric value of a decimal digit character, none for any other character. -/
def digitVal (c : Char) : Option Nat :=
  if 48 ≤ c.toNat ∧ c.toNat ≤ 57 then some (c.toNat - 48) else none

/-- Decimal digit test on characters. -/
def isDigitCh (c : Char) : Bool := decide (48 ≤ c.toNat ∧ c.toNat ≤ 57)

/-- Digit expansion, most significant digit first, of a positive number; the
fuel argument makes the recursion structural so the kernel can evaluate it. -/
def renderNatAux : Nat → Nat → List Char
  | 0, _ => []
  | fuel + 1, n => if n = 0 then [] else renderNatAux fuel (n / 10) ++ [digitChar (n % 10)]

/-- Decimal rendering of a natural number, as Python str gives it. -/
def renderNat (n : Nat) : List Char := if n = 0 then ['0'] else renderNatAux n n

/-- Value of a digit string read most significant digit first. -/
def digitsVal (cs : List Char) : Nat := cs.foldl (fun a c => 10 * a + (digitVal c).getD 0) 0

/-- All characters are decimal digits. -/
def allDigits (cs : List Char) : Bool := cs.all isDigitCh

/-- Parse a nonempty string of decimal digits; none otherwise. -/
def parseNat (cs : List Char) : Option Nat :=
  if cs ≠ [] ∧ allDigits cs then some (digitsVal cs) else none

/-- Left-pad with zeros to width k, as strftime and str.zfill do. -/
def pad (k : Nat) (cs : List Char) : List Char := List.replicate (k - cs.length) '0' ++ cs

theorem digitVal_digitChar (d : Nat) (h : d < 10) : digitVal (digitChar d) = some d := by
  interval_cases d <;> rfl

theorem isDigitCh_digitChar (d : Nat) (h : d < 10) : isDigitCh (digitChar d) = true := by
  interval_cases d <;> rfl

theorem allDigits_renderNatAux (fuel n : Nat) : allDigits (renderNatAux fuel n) = true := by
  induction fuel generalizing n with
  | zero => rfl
  | succ fuel ih =>
    unfold renderNatAux
    by_cases h : n = 0
    · simp [h, allDigits]
    · have h1 := ih (n / 10)
      have h2 := isDigitCh_digitChar (n % 10) (Nat.mod_lt n (by omega))
      simp only [allDigits] at h1 ⊢
      simp [h, List.all_append, h1, h2]

theorem allDigits_renderNat (n : Nat) : allDigits (renderNat n) = true := by
  unfold renderNat
  by_cases h : n = 0
  · simp [h]; rfl
  · simp [h, allDigits_renderNatAux]

theorem renderNatAux_ne_nil (fuel n : Nat) (hn : 0 < n) (hf : n ≤ fuel) :
    renderNatAux fuel n ≠ [] := by
  cases fuel with
  | zero => omega
  | succ fuel =>
    unfold renderNatAux
    simp only [Nat.pos_iff_ne_zero.mp hn, if_false]
    exact List.append_ne_nil_of_right_ne_nil _ (by simp)

theorem renderNat_ne_nil (n : Nat) : renderNat n ≠ [] := by
  unfold renderNat
  by_cases h : n = 0
  · simp [h]
  · simpa [h] using renderNatAux_ne_nil n n (by omega) le_rfl

theorem foldl_renderNatAux (fuel : Nat) :
    ∀ n, n ≤ fuel → ∀ acc : Nat,
      List.foldl (fun a c => 10 * a + (digitVal c).getD 0) acc (renderNatAux fuel n)
        = acc * 10 ^ (renderNatAux fuel n).length + n := by
  induction fuel with
  | zero => intro n hn acc; interval_cases n; simp [renderNatAux]
  | succ fuel ih =>
    intro n hn acc
    by_cases h : n = 0
    · simp [h, renderNatAux]
    · have hdiv : n / 10 ≤ fuel := by
        have : n / 10 < n := Nat.div_lt_self (by omega) (by omega)
        omega
      unfold renderNatAux
      simp only [h, if_false, List.foldl_append, List.length_append, List.length_cons,
        List.length_nil, List.foldl_cons, List.foldl_nil]
      rw [ih (n / 10) hdiv acc]
      rw [digitVal_digitChar (n % 10) (Nat.mod_lt n (by omega))]
      have : acc * 10 ^ ((renderNatAux fuel (n / 10)).length + (0 + 1))
          = (acc * 10 ^ (renderNatAux fuel (n / 10)).length) * 10 := by ring
      rw [this]
      simp only [Option.getD_some]
      omega

theorem digitsVal_renderNat (n : Nat) : digitsVal (renderNat n) = n := by
  unfold renderNat digitsVal
  by_cases h : n = 0
  · simp [h]; rfl
  · rw [if_neg h]
    simpa using foldl_renderNatAux n n le_rfl 0

theorem parseNat_renderNat (n : Nat) : parseNat (renderNat n) = some n := by
  unfold parseNat
  rw [if_pos ⟨renderNat_ne_nil n, allDigits_renderNat n⟩, digitsVal_renderNat]

theorem digitsVal_replicate_zero (j : Nat) (cs : List Char) :
    digitsVal (List.replicate j '0' ++ cs) = digitsVal cs := by
  induction j with
  | zero => simp
  | succ j ih =>
    unfold digitsVal at *
    simpa [List.replicate_succ] using ih

theorem allDigits_pad (k : Nat) (cs : List Char) (h : allDigits cs = true) :
    allDigits (pad k cs) = true := by
  unfold pad allDigits at *
  rw [List.all_append, h, Bool.and_true, List.all_eq_true]
  intro c hc
  rw [List.eq_of_mem_replicate hc]
  rfl

theorem pad_ne_nil (k : Nat) (cs : List Char) (h : cs ≠ []) : pad k cs ≠ [] := by
  unfold pad
  exact List.append_ne_nil_of_right_ne_nil _ h

theorem parseNat_pad_renderNat (k n : Nat) : parseNat (pad k (renderNat n)) = some n := by
  unfold parseNat
  rw [if_pos ⟨pad_ne_nil k _ (renderNat_ne_nil n), allDigits_pad k _ (allDigits_renderNat n)⟩]
  unfold pad
  rw [digitsVal_replicate_zero, digitsVal_renderNat]

theorem length_renderNatAux_le (fuel : Nat) :
    ∀ n k, n ≤ fuel → n < 10 ^ k → (renderNatAux fuel n).length ≤ k := by
  induction fuel with
  | zero => intro n k hn hk; interval_cases n; simp [renderNatAux]
  | succ fuel ih =>
    intro n k hn hk
    by_cases h : n = 0
    · simp [h, renderNatAux]
    · have hkpos : 0 < k := by
        rcases Nat.eq_zero_or_pos k with h0 | h0
        · subst h0; simp at hk; omega
        · exact h0
      have hdivfuel : n / 10 ≤ fuel := by
        have : n / 10 < n := Nat.div_lt_self (by omega) (by omega)
        omega
      have hdivlt : n / 10 < 10 ^ (k - 1) := by
        have h10 : (10 : Nat) ^ k = 10 ^ (k - 1) * 10 := by
          rw [← pow_succ]
          congr 1
          omega
        rw [Nat.div_lt_iff_lt_mul (by omega)]
        omega
      unfold renderNatAux
      simp only [h, if_false, List.length_append, List.length_cons, List.length_nil]
      have := ih (n / 10) (k - 1) hdivfuel hdivlt
      omega

theorem length_renderNat_le (n k : Nat) (h : n < 10 ^ k) (hk : 0 < k) :
    (renderNat n).length ≤ k := by
  unfold renderNat
  by_cases h0 : n = 0
  · simp [h0]; omega
  · rw [if_neg h0]
    exact length_renderNatAux_le n n k le_rfl h

theorem length_pad (k : Nat) (cs : List Char) (h : cs.length ≤ k) :
    (pad k cs).length = k := by
  unfold pad
  simp [List.length_replicate]
  omega

/-- Calendar date, the datetime.date value the source handles (no time part). -/
structure Date where
  year : Nat
  month : Nat
  day : Nat
deriving DecidableEq, Repr

/-- Gregorian leap year, as datetime computes it. -/
def isLeap (y : Nat) : Bool := y % 4 = 0 && (y % 100 != 0 || y % 400 = 0)

/-- Days in a month of a given year, as datetime computes it. -/
def daysInMonth (y m : Nat) : Nat :=
  if m = 2 then (if isLeap y then 29 else 28)
  else if m = 4 ∨ m = 6 ∨ m = 9 ∨ m = 11 then 30 else 31

/-- A structurally valid calendar date (what datetime.date admits). -/
def Date.valid (d : Date) : Bool :=
  decide (1 ≤ d.year ∧ 1 ≤ d.month ∧ d.month ≤ 12 ∧ 1 ≤ d.day ∧ d.day ≤ daysInMonth d.year d.month)

/-- Lexicographic order on dates: the order datetime.date carries, used by the
date-range comparisons in main. -/
def dateLeB (a b : Date) : Bool :=
  decide (a.year < b.year ∨ (a.year = b.year ∧
    (a.month < b.month ∨ (a.month = b.month ∧ a.day ≤ b.day))))

/-- Strict version of the date order. -/
def dateLtB (a b : Date) : Bool :=
  decide (a.year < b.year ∨ (a.year = b.year ∧
    (a.month < b.month ∨ (a.month = b.month ∧ a.day < b.day))))

theorem dateLeB_trans (a b c : Date) (h1 : dateLeB a b = true) (h2 : dateLeB b c = true) :
    dateLeB a c = true := by
  unfold dateLeB at *
  simp only [decide_eq_true_eq] at *
  omega

theorem dateLeB_not_lt (a b : Date) (h : dateLeB a b = true) : dateLtB b a = false := by
  unfold dateLeB dateLtB at *
  simp only [decide_eq_true_eq, decide_eq_false_iff_not] at *
  omega

/-- Dates representable as a pandas Timestamp at midnight: pd.to_datetime with
errors coerce turns anything outside [1677-09-22, 2262-04-11] into NaT. -/
def inTimestampBounds (d : Date) : Bool :=
  dateLeB ⟨1677, 9, 22⟩ d && dateLeB d ⟨2262, 4, 11⟩

/-- The string strftime percent-Y-percent-m-percent-d produces: zero-padded
four-digit year, two-digit month and day, dash separated. -/
def dateChars (d : Date) : List Char :=
  pad 4 (renderNat d.year) ++ '-' :: (pad 2 (renderNat d.month) ++ '-' :: pad 2 (renderNat d.day))

/-- Split a character list at every occurrence of a separator. -/
def splitOnChar (sep : Char) : List Char → List (List Char)
  | [] => [[]]
  | c :: cs =>
    if c = sep then [] :: splitOnChar sep cs
    else
      match splitOnChar sep cs with
      | [] => [[c]]
      | f :: rest => (c :: f) :: rest

theorem splitOnChar_ne_nil (sep : Char) (cs : List Char) : splitOnChar sep cs ≠ [] := by
  cases cs with
  | nil => simp [splitOnChar]
  | cons c cs =>
    unfold splitOnChar
    by_cases h : c = sep
    · simp [h]
    · simp only [h, if_false]
      cases splitOnChar sep cs <;> simp

theorem splitOnChar_no_sep (sep : Char) (a : List Char) (h : ∀ c ∈ a, c ≠ sep) :
    splitOnChar sep a = [a] := by
  induction a with
  | nil => rfl
  | cons c cs ih =>
    unfold splitOnChar
    rw [if_neg (h c (by simp))]
    rw [ih (fun x hx => h x (by simp [hx]))]

theorem splitOnChar_append_sep (sep : Char) (a rest : List Char) (h : ∀ c ∈ a, c ≠ sep) :
    splitOnChar sep (a ++ sep :: rest) = a :: splitOnChar sep rest := by
  induction a with
  | nil => simp [splitOnChar]
  | cons c cs ih =>
    have hc : c ≠ sep := h c (by simp)
    have ih2 := ih (fun x hx => h x (by simp [hx]))
    simp only [List.cons_append]
    rw [splitOnChar, if_neg hc, ih2]

/-- The final validity gate of date parsing: a structurally valid calendar
date inside the Timestamp range, or none (NaT). -/
def mkValidDate (y m d : Nat) : Option Date :=
  if (Date.mk y m d).valid && inTimestampBounds (Date.mk y m d) then some (Date.mk y m d)
  else none

/-- Modelled date parsing for the loaded date column: pd.to_datetime with
errors coerce, restricted to the dash-separated ISO form the store writes;
coerces to none (NaT) anything not a valid calendar date or outside the
Timestamp range. -/
def parseDate (cs : List Char) : Option Date :=
  match splitOnChar '-' cs with
  | [ys, ms, ds] =>
    match parseNat ys, parseNat ms, parseNat ds with
    | some y, some m, some d => mkValidDate y m d
    | _, _, _ => none
  | _ => none

theorem isDigitCh_ne_dash (c : Char) (h : isDigitCh c = true) : c ≠ '-' := by
  intro hc
  subst hc
  simp [isDigitCh] at h

theorem pad_renderNat_no_dash (k n : Nat) : ∀ c ∈ pad k (renderNat n), c ≠ '-' := by
  intro c hc
  have hall := allDigits_pad k (renderNat n) (allDigits_renderNat n)
  unfold allDigits at hall
  rw [List.all_eq_true] at hall
  exact isDigitCh_ne_dash c (hall c hc)

theorem parseDate_dateChars (d : Date) (hv : d.valid = true) (hb : inTimestampBounds d = true) :
    parseDate (dateChars d) = some d := by
  unfold parseDate dateChars
  rw [splitOnChar_append_sep '-' _ _ (pad_renderNat_no_dash 4 d.year),
    splitOnChar_append_sep '-' _ _ (pad_renderNat_no_dash 2 d.month),
    splitOnChar_no_sep '-' _ (pad_renderNat_no_dash 2 d.day)]
  simp only [parseNat_pad_renderNat]
  show mkValidDate d.year d.month d.day = some d
  unfold mkValidDate
  simp [hv, hb]

/-- Characters Python str.strip removes (the ASCII whitespace subset). -/
def isSpaceCh (c : Char) : Bool :=
  c = ' ' || c = '\t' || c = '\n' || c = '\r' || c.toNat = 11 || c.toNat = 12

/-- Python str.strip: whitespace dropped from both ends. -/
def stripChars (cs : List Char) : List Char :=
  ((cs.dropWhile isSpaceCh).reverse.dropWhile isSpaceCh).reverse

/-- Search the least exponent k with 1 <= k <= fuel + k0 - 1 making q * 10 ^ k an
integer.  Every float the source writes admits one (its shortest repr is a plain
decimal for the magnitudes the form accepts), well within the fuel of 40. -/
def decExpAux (q : ℚ) : Nat → Nat → Option (Int × Nat)
  | 0, _ => none
  | fuel + 1, k =>
    if (q * (10 : ℚ) ^ k).den = 1 then some ((q * (10 : ℚ) ^ k).num, k)
    else decExpAux q fuel (k + 1)

/-- Minimal decimal form of an amount: q = n / 10 ^ k with k minimal, k at least 1. -/
def decExp (q : ℚ) : Option (Int × Nat) := decExpAux q 40 1

/-- str(float) as csv.writer renders the amount: the shortest plain decimal,
always with at least one fraction digit (str(5.0) is 5.0, str(10.5) is 10.5). -/
def renderAmount (q : ℚ) : List Char :=
  match decExp q with
  | none => []
  | some (n, k) =>
    (if n < 0 then ['-'] else []) ++
      (renderNat (n.natAbs / 10 ^ k) ++ '.' :: pad k (renderNat (n.natAbs % 10 ^ k)))

/-- Unsigned mantissa grammar of pd.to_numeric: digits with one optional dot,
at least one digit overall. -/
def parseUnsigned (cs : List Char) : Option ℚ :=
  match splitOnChar '.' cs with
  | [ip] => if ip ≠ [] ∧ allDigits ip = true then some ((digitsVal ip : ℚ)) else none
  | [ip, fp] =>
    if (ip ≠ [] ∨ fp ≠ []) ∧ allDigits ip = true ∧ allDigits fp = true then
      some (((digitsVal ip : ℚ) * 10 ^ fp.length + (digitsVal fp : ℚ)) / 10 ^ fp.length)
    else none
  | _ => none

/-- Signed mantissa: one optional leading sign. -/
def parseSigned (cs : List Char) : Option ℚ :=
  if cs.head? = some '-' then (parseUnsigned cs.tail).map (fun q => -q)
  else if cs.head? = some '+' then parseUnsigned cs.tail
  else parseUnsigned cs

/-- Split at the first exponent marker e or E, if any. -/
def splitOnExpChar : List Char → List Char × Option (List Char)
  | [] => ([], none)
  | c :: cs =>
    if c = 'e' ∨ c = 'E' then ([], some cs)
    else
      match splitOnExpChar cs with
      | (m, r) => (c :: m, r)

/-- Signed integer exponent. -/
def parseExpPart (cs : List Char) : Option Int :=
  match cs with
  | [] => none
  | c :: rest =>
    if c = '-' then (parseNat rest).map (fun n => -(n : Int))
    else if c = '+' then (parseNat rest).map (fun n => (n : Int))
    else (parseNat (c :: rest)).map (fun n => (n : Int))

/-- pd.to_numeric with errors coerce on one amount field: plain decimal or
scientific notation, surrounding whitespace tolerated; anything else coerces
to NaN (none).  Numeric values are exact rationals here: the source compares
and sums floats read back from their own shortest repr, which this models. -/
def parseAmount (cs : List Char) : Option ℚ :=
  match splitOnExpChar (stripChars cs) with
  | (m, none) => parseSigned m
  | (m, some e) =>
    match parseSigned m, parseExpPart e with
    | some q, some ex => some (q * (10 : ℚ) ^ ex)
    | _, _ => none

theorem isDigitCh_ne (c x : Char) (h : isDigitCh c = true) (hx : isDigitCh x = false) :
    c ≠ x := by
  intro e
  rw [e, hx] at h
  cases h

theorem decExpAux_some (q : ℚ) (fuel : Nat) :
    ∀ k0 n k, decExpAux q fuel k0 = some (n, k) →
      k0 ≤ k ∧ (q * (10 : ℚ) ^ k).den = 1 ∧ n = (q * (10 : ℚ) ^ k).num := by
  induction fuel with
  | zero => intro k0 n k h; cases h
  | succ fuel ih =>
    intro k0 n k h
    unfold decExpAux at h
    by_cases hden : (q * (10 : ℚ) ^ k0).den = 1
    · rw [if_pos hden] at h
      obtain ⟨rfl, rfl⟩ : n = (q * (10 : ℚ) ^ k0).num ∧ k = k0 := by
        constructor <;> [skip; skip] <;> cases h <;> rfl
      exact ⟨le_rfl, hden, rfl⟩
    · rw [if_neg hden] at h
      obtain ⟨h1, h2, h3⟩ := ih (k0 + 1) n k h
      exact ⟨by omega, h2, h3⟩

theorem decExp_some (q : ℚ) (n : Int) (k : Nat) (h : decExp q = some (n, k)) :
    1 ≤ k ∧ (q * (10 : ℚ) ^ k).den = 1 ∧ n = (q * (10 : ℚ) ^ k).num :=
  decExpAux_some q 40 1 n k h

theorem dropWhile_eq_self_of_all (p : Char → Bool) (cs : List Char)
    (h : ∀ c ∈ cs, p c = false) : cs.dropWhile p = cs := by
  cases cs with
  | nil => rfl
  | cons c cs => simp [List.dropWhile_cons, h c (by simp)]

theorem stripChars_eq_self (cs : List Char) (h : ∀ c ∈ cs, isSpaceCh c = false) :
    stripChars cs = cs := by
  unfold stripChars
  rw [dropWhile_eq_self_of_all _ _ h,
    dropWhile_eq_self_of_all _ _ (fun c hc => h c (List.mem_reverse.mp hc)),
    List.reverse_reverse]

theorem splitOnExpChar_no_exp (cs : List Char)
    (h : ∀ c ∈ cs, ¬(c = 'e' ∨ c = 'E')) : splitOnExpChar cs = (cs, none) := by
  induction cs with
  | nil => rfl
  | cons c cs ih =>
    unfold splitOnExpChar
    rw [if_neg (h c (by simp)), ih (fun x hx => h x (by simp [hx]))]

theorem digitsVal_pad (k : Nat) (cs : List Char) : digitsVal (pad k cs) = digitsVal cs := by
  unfold pad
  exact digitsVal_replicate_zero _ _

theorem isDigitCh_not_space (c : Char) (h : isDigitCh c = true) : isSpaceCh c = false := by
  have h1 : c ≠ ' ' := isDigitCh_ne c ' ' h rfl
  have h2 : c ≠ '\t' := isDigitCh_ne c '\t' h rfl
  have h3 : c ≠ '\n' := isDigitCh_ne c '\n' h rfl
  have h4 : c ≠ '\r' := isDigitCh_ne c '\r' h rfl
  have h5 : 48 ≤ c.toNat ∧ c.toNat ≤ 57 := by
    unfold isDigitCh at h
    exact of_decide_eq_true h
  unfold isSpaceCh
  simp [h1, h2, h3, h4]
  omega

theorem renderAmount_pos_eq (q : ℚ) (n : Int) (k : Nat) (hq : 0 < q)
    (h : decExp q = some (n, k)) :
    renderAmount q
      = renderNat (n.natAbs / 10 ^ k) ++ '.' :: pad k (renderNat (n.natAbs % 10 ^ k)) := by
  obtain ⟨hk, hden, hnum⟩ := decExp_some q n k h
  have hqk : 0 < q * (10 : ℚ) ^ k := by positivity
  have hn : 0 < n := by rw [hnum]; exact Rat.num_pos.mpr hqk
  simp only [renderAmount, h]
  rw [if_neg (by omega : ¬ n < 0)]
  rfl

theorem length_renderFrac (m k : Nat) (hk : 1 ≤ k) :
    (pad k (renderNat (m % 10 ^ k))).length = k :=
  length_pad k _ (length_renderNat_le _ k (Nat.mod_lt _ (by positivity)) (by omega))

theorem renderAmount_digit_or_dot (q : ℚ) (n : Int) (k : Nat) (hq : 0 < q)
    (h : decExp q = some (n, k)) :
    ∀ c ∈ renderAmount q, isDigitCh c = true ∨ c = '.' := by
  rw [renderAmount_pos_eq q n k hq h]
  intro c hc
  rcases List.mem_append.mp hc with h1 | h1
  · left
    have := allDigits_renderNat (n.natAbs / 10 ^ k)
    unfold allDigits at this
    exact (List.all_eq_true.mp this) c h1
  · rcases List.mem_cons.mp h1 with h2 | h2
    · right; exact h2
    · left
      have := allDigits_pad k _ (allDigits_renderNat (n.natAbs % 10 ^ k))
      unfold allDigits at this
      exact (List.all_eq_true.mp this) c h2

theorem parseUnsigned_intfrac (ipart fpart : List Char) (hne : ipart ≠ [])
    (hi : allDigits ipart = true) (hf : allDigits fpart = true)
    (hnodotI : ∀ x ∈ ipart, x ≠ '.') (hnodotF : ∀ x ∈ fpart, x ≠ '.') :
    parseUnsigned (ipart ++ '.' :: fpart)
      = some (((digitsVal ipart : ℚ) * 10 ^ fpart.length + (digitsVal fpart : ℚ))
          / 10 ^ fpart.length) := by
  unfold parseUnsigned
  rw [splitOnChar_append_sep '.' _ _ hnodotI, splitOnChar_no_sep '.' _ hnodotF]
  show (if (ipart ≠ [] ∨ fpart ≠ []) ∧ allDigits ipart = true ∧ allDigits fpart = true then
      some (((digitsVal ipart : ℚ) * 10 ^ fpart.length + (digitsVal fpart : ℚ))
        / 10 ^ fpart.length)
    else none) = _
  rw [if_pos ⟨Or.inl hne, hi, hf⟩]

theorem parseAmount_renderAmount (q : ℚ) (n : Int) (k : Nat) (hq : 0 < q)
    (h : decExp q = some (n, k)) : parseAmount (renderAmount q) = some q := by
  obtain ⟨hk, hden, hnum⟩ := decExp_some q n k h
  have hqk : 0 < q * (10 : ℚ) ^ k := by positivity
  have hn : 0 < n := by rw [hnum]; exact Rat.num_pos.mpr hqk
  have hq10 : q * (10 : ℚ) ^ k = (n : ℚ) := by
    rw [hnum]
    exact (Rat.coe_int_num_of_den_eq_one hden).symm
  have hchars := renderAmount_digit_or_dot q n k hq h
  have hre := renderAmount_pos_eq q n k hq h
  have hnospace : ∀ c ∈ renderAmount q, isSpaceCh c = false := by
    intro c hc
    rcases hchars c hc with hd | hd
    · exact isDigitCh_not_space c hd
    · rw [hd]; rfl
  have hnoexp : ∀ c ∈ renderAmount q, ¬(c = 'e' ∨ c = 'E') := by
    intro c hc
    rcases hchars c hc with hd | hd
    · rintro (rfl | rfl) <;> simp [isDigitCh] at hd
    · rw [hd]; rintro (he | he) <;> cases he
  unfold parseAmount
  rw [stripChars_eq_self _ hnospace, splitOnExpChar_no_exp _ hnoexp]
  show parseSigned (renderAmount q) = some q
  have hIne := renderNat_ne_nil (n.natAbs / 10 ^ k)
  have hIdig := allDigits_renderNat (n.natAbs / 10 ^ k)
  have hFdig := allDigits_pad k _ (allDigits_renderNat (n.natAbs % 10 ^ k))
  have hnodotI : ∀ x ∈ renderNat (n.natAbs / 10 ^ k), x ≠ '.' := by
    intro x hx
    exact isDigitCh_ne x '.' ((List.all_eq_true.mp hIdig) x hx) rfl
  have hnodotF : ∀ x ∈ pad k (renderNat (n.natAbs % 10 ^ k)), x ≠ '.' := by
    intro x hx
    exact isDigitCh_ne x '.' ((List.all_eq_true.mp hFdig) x hx) rfl
  cases hI : renderNat (n.natAbs / 10 ^ k) with
  | nil => exact absurd hI hIne
  | cons c t =>
    have hcdig : isDigitCh c = true := by
      rw [hI] at hIdig
      exact (List.all_eq_true.mp hIdig) c (by simp)
    have hhead : (renderAmount q).head? = some c := by
      rw [hre, hI]; rfl
    unfold parseSigned
    rw [hhead]
    rw [if_neg (by simpa using isDigitCh_ne c '-' hcdig rfl),
      if_neg (by simpa using isDigitCh_ne c '+' hcdig rfl)]
    rw [hre, parseUnsigned_intfrac _ _ hIne hIdig hFdig hnodotI hnodotF]
    rw [digitsVal_pad, digitsVal_renderNat, digitsVal_renderNat,
      length_renderFrac (n.natAbs) k hk]
    congr 1
    have hten : ((10 : ℚ) ^ k) ≠ 0 := by positivity
    rw [div_eq_iff hten]
    have hsum : (n.natAbs / 10 ^ k) * 10 ^ k + n.natAbs % 10 ^ k = n.natAbs := by
      rw [mul_comm]
      exact Nat.div_add_mod _ _
    have hcast : ((n.natAbs : ℚ)) = (n : ℚ) := by
      rw [Int.cast_natAbs]
      exact_mod_cast congrArg (fun z : ℤ => (z : ℚ)) (abs_of_pos hn)
    calc ((n.natAbs / 10 ^ k : ℕ) : ℚ) * 10 ^ k + ((n.natAbs % 10 ^ k : ℕ) : ℚ)
        = (((n.natAbs / 10 ^ k) * 10 ^ k + n.natAbs % 10 ^ k : ℕ) : ℚ) := by push_cast; ring
      _ = ((n.natAbs : ℕ) : ℚ) := by rw [hsum]
      _ = (n : ℚ) := hcast
      _ = q * (10 : ℚ) ^ k := hq10.symm

/-- csv.writer QUOTE_MINIMAL: a field is quoted iff it contains the delimiter,
the quote character or a line-terminator character. -/
def needsQuote (f : List Char) : Bool :=
  f.any (fun c => c = ',' || c = '"' || c = '\r' || c = '\n')

/-- csv.writer doubles every quote character inside a quoted field. -/
def escapeQuotes : List Char → List Char
  | [] => []
  | c :: cs => if c = '"' then '"' :: '"' :: escapeQuotes cs else c :: escapeQuotes cs

/-- One encoded CSV field, QUOTE_MINIMAL style. -/
def encodeField (f : List Char) : List Char :=
  if needsQuote f then '"' :: (escapeQuotes f ++ ['"']) else f

/-- The one line csv.writer.writerow emits for a three-field row (without the
line terminator, which separates lines in the file model). -/
def writeRow3 (f1 f2 f3 : List Char) : List Char :=
  encodeField f1 ++ ',' :: (encodeField f2 ++ ',' :: encodeField f3)

/-- States of the CSV field tokenizer (the pandas C tokenizer on one line):
at a field start, inside an unquoted field, inside quotes, and just after a
quote character inside a quoted field. -/
inductive TokMode | start | plain | quoted | qq
deriving DecidableEq, Repr

/-- The field tokenizer: mode, accumulator (reversed), input.  Doubled quotes
inside a quoted field are literal quotes; text after a closing quote continues
the field unquoted (as the pandas tokenizer treats it). -/
def tokRun : TokMode → List Char → List Char → List (List Char)
  | .start, acc, [] => [acc.reverse]
  | .start, acc, c :: rest =>
    if c = '"' then tokRun .quoted acc rest
    else if c = ',' then acc.reverse :: tokRun .start [] rest
    else tokRun .plain (c :: acc) rest
  | .plain, acc, [] => [acc.reverse]
  | .plain, acc, c :: rest =>
    if c = ',' then acc.reverse :: tokRun .start [] rest
    else tokRun .plain (c :: acc) rest
  | .quoted, acc, [] => [acc.reverse]
  | .quoted, acc, c :: rest =>
    if c = '"' then tokRun .qq acc rest
    else tokRun .quoted (c :: acc) rest
  | .qq, acc, [] => [acc.reverse]
  | .qq, acc, c :: rest =>
    if c = '"' then tokRun .quoted ('"' :: acc) rest
    else if c = ',' then acc.reverse :: tokRun .start [] rest
    else tokRun .plain (c :: acc) rest

/-- Fields of one line, as the pandas C tokenizer splits it. -/
def tokenizeLine (cs : List Char) : List (List Char) := tokRun .start [] cs

/-- A field without delimiter, quote or line-terminator characters. -/
def fieldPlain (f : List Char) : Prop := ∀ c ∈ f, ¬(c = ',' ∨ c = '"' ∨ c = '\r' ∨ c = '\n')

theorem needsQuote_eq_false (f : List Char) (h : fieldPlain f) : needsQuote f = false := by
  unfold needsQuote
  rw [List.any_eq_false]
  intro c hc
  have := h c hc
  simp only [Bool.or_eq_true, decide_eq_true_eq] at *
  tauto

theorem tokRun_nil (m : TokMode) (acc : List Char) : tokRun m acc [] = [acc.reverse] := by
  cases m <;> rfl

theorem tokRun_start_cons (acc : List Char) (c : Char) (rest : List Char) :
    tokRun .start acc (c :: rest)
      = if c = '"' then tokRun .quoted acc rest
        else if c = ',' then acc.reverse :: tokRun .start [] rest
        else tokRun .plain (c :: acc) rest := rfl

theorem tokRun_plain_cons (acc : List Char) (c : Char) (rest : List Char) :
    tokRun .plain acc (c :: rest)
      = if c = ',' then acc.reverse :: tokRun .start [] rest
        else tokRun .plain (c :: acc) rest := rfl

theorem tokRun_quoted_cons (acc : List Char) (c : Char) (rest : List Char) :
    tokRun .quoted acc (c :: rest)
      = if c = '"' then tokRun .qq acc rest
        else tokRun .quoted (c :: acc) rest := rfl

theorem tokRun_qq_cons (acc : List Char) (c : Char) (rest : List Char) :
    tokRun .qq acc (c :: rest)
      = if c = '"' then tokRun .quoted ('"' :: acc) rest
        else if c = ',' then acc.reverse :: tokRun .start [] rest
        else tokRun .plain (c :: acc) rest := rfl

theorem tokRun_plain_no_comma_end (f : List Char) (h : ∀ c ∈ f, c ≠ ',') :
    ∀ acc, tokRun .plain acc f = [acc.reverse ++ f] := by
  induction f with
  | nil => intro acc; simp [tokRun_nil]
  | cons c cs ih =>
    intro acc
    rw [tokRun_plain_cons, if_neg (h c (by simp))]
    rw [ih (fun x hx => h x (by simp [hx])) (c :: acc)]
    simp

theorem tokRun_plain_no_comma_sep (f rest : List Char) (h : ∀ c ∈ f, c ≠ ',') :
    ∀ acc, tokRun .plain acc (f ++ ',' :: rest)
      = (acc.reverse ++ f) :: tokRun .start [] rest := by
  induction f with
  | nil =>
    intro acc
    rw [List.nil_append, tokRun_plain_cons, if_pos rfl]
    simp
  | cons c cs ih =>
    intro acc
    simp only [List.cons_append]
    rw [tokRun_plain_cons, if_neg (h c (by simp))]
    rw [ih (fun x hx => h x (by simp [hx])) (c :: acc)]
    simp

theorem escapeQuotes_cons (c : Char) (cs : List Char) :
    escapeQuotes (c :: cs)
      = if c = '"' then '"' :: '"' :: escapeQuotes cs else c :: escapeQuotes cs := rfl

theorem tokRun_quoted_escape (f : List Char) :
    ∀ acc rest, tokRun .quoted acc (escapeQuotes f ++ '"' :: rest)
      = tokRun .qq (f.reverse ++ acc) rest := by
  induction f with
  | nil =>
    intro acc rest
    show tokRun .quoted acc ('"' :: rest) = _
    rw [tokRun_quoted_cons, if_pos rfl]
    simp
  | cons c cs ih =>
    intro acc rest
    rw [escapeQuotes_cons]
    by_cases hc : c = '"'
    · rw [if_pos hc]
      simp only [List.cons_append]
      rw [tokRun_quoted_cons, if_pos rfl, tokRun_qq_cons, if_pos rfl]
      rw [ih ('"' :: acc) rest]
      simp [hc]
    · rw [if_neg hc]
      simp only [List.cons_append]
      rw [tokRun_quoted_cons, if_neg hc]
      rw [ih (c :: acc) rest]
      simp

theorem encodeField_plain (f : List Char) (h : fieldPlain f) : encodeField f = f := by
  unfold encodeField
  rw [needsQuote_eq_false f h, if_neg (by simp)]

theorem fieldPlain_of_not_needsQuote (f : List Char) (h : needsQuote f = false) :
    fieldPlain f := by
  intro c hc
  unfold needsQuote at h
  rw [List.any_eq_false] at h
  have := h c hc
  simp only [Bool.or_eq_true, decide_eq_true_eq] at this
  tauto

theorem tokRun_start_field_sep (f rest : List Char) (hf : fieldPlain f) :
    tokRun .start [] (f ++ ',' :: rest) = f :: tokRun .start [] rest := by
  cases f with
  | nil =>
    rw [List.nil_append, tokRun_start_cons, if_neg (by decide), if_pos rfl]
    simp
  | cons c0 t =>
    have hc0 := hf c0 (by simp)
    simp only [List.cons_append]
    rw [tokRun_start_cons, if_neg (by tauto), if_neg (by tauto)]
    rw [tokRun_plain_no_comma_sep t rest (fun x hx => by have := hf x (by simp [hx]); tauto)]
    simp

theorem tokRun_start_field_end (f : List Char) (hf : fieldPlain f) :
    tokRun .start [] f = [f] := by
  cases f with
  | nil => rw [tokRun_nil]; rfl
  | cons c0 t =>
    have hc0 := hf c0 (by simp)
    rw [tokRun_start_cons, if_neg (by tauto), if_neg (by tauto)]
    rw [tokRun_plain_no_comma_end t (fun x hx => by have := hf x (by simp [hx]); tauto)]
    simp

theorem tokRun_start_quoted_sep (f rest : List Char) :
    tokRun .start [] (('"' :: (escapeQuotes f ++ ['"'])) ++ ',' :: rest)
      = f :: tokRun .start [] rest := by
  have hassoc : ('"' :: (escapeQuotes f ++ ['"'])) ++ ',' :: rest
      = '"' :: (escapeQuotes f ++ '"' :: ',' :: rest) := by simp
  rw [hassoc, tokRun_start_cons, if_pos rfl]
  rw [tokRun_quoted_escape f [] (',' :: rest)]
  rw [tokRun_qq_cons, if_neg (by decide), if_pos rfl]
  simp

/-- One written row tokenizes back into its three fields: the date and amount
fields are plain, the category is recovered whether or not it was quoted. -/
theorem tokenizeLine_writeRow3 (d c a : List Char)
    (hd2 : fieldPlain d) (ha2 : fieldPlain a) :
    tokenizeLine (writeRow3 d c a) = [d, c, a] := by
  unfold tokenizeLine writeRow3
  rw [encodeField_plain d hd2, encodeField_plain a ha2]
  rw [tokRun_start_field_sep d _ hd2]
  by_cases hq : needsQuote c = true
  · have henc : encodeField c = '"' :: (escapeQuotes c ++ ['"']) := by
      unfold encodeField
      rw [if_pos (by simp [hq])]
    rw [henc, tokRun_start_quoted_sep c a, tokRun_start_field_end a ha2]
  · have hplain := fieldPlain_of_not_needsQuote c (by simpa using hq)
    rw [encodeField_plain c hplain]
    rw [tokRun_start_field_sep c a hplain, tokRun_start_field_end a ha2]

/-- One in-memory expense record, a row of the loaded DataFrame: parsed date,
raw category text, numeric amount. -/
structure ExpenseRecord where
  date : Date
  category : List Char
  amount : ℚ
deriving DecidableEq, Repr

/-- The pandas default NaN sentinel strings: read_csv turns a field equal to
one of these (the empty field included) into missing data. -/
def naList : List (List Char) :=
  [ "", "#N/A", "#N/A N/A", "#NA", "-1.#IND", "-1.#QNAN", "-NaN", "-nan",
    "1.#IND", "1.#QNAN", "<NA>", "N/A", "NA", "NULL", "NaN", "None", "n/a",
    "nan", "null"].map String.data

/-- One three-field row to a record, as load_expenses cleans it: the first
dropna drops rows with a missing (NA) field, then to_numeric and to_datetime
with errors coerce followed by a second dropna drop rows whose amount is not
numeric or whose date does not parse. -/
def rowToRecord (r : List (List Char)) : Option ExpenseRecord :=
  match r with
  | [df, cf, af] =>
    if df ∈ naList ∨ cf ∈ naList ∨ af ∈ naList then none
    else
      match parseDate df, parseAmount af with
      | some d, some a => some ⟨d, cf, a⟩
      | _, _ => none
  | _ => none

/-- Width normalization of a tokenized row, as pandas applies it when three
column names are given: rows shorter than the width w of the first row get
missing trailing fields (the empty field, itself an NA sentinel), and when
w exceeds 3 the leftmost w - 3 columns become the index and are dropped. -/
def normalizeRow (w : Nat) (r : List (List Char)) : List (List Char) :=
  (r ++ List.replicate (max w 3 - r.length) []).drop (w - 3)

/-- Row cleaning over the tokenized rows of the file: pandas raises a
ParserError - caught by the surrounding try/except of load_expenses, which
then returns an empty DataFrame - when any row has more fields than the
first row; otherwise rows are width-normalized against the first row and
cleaned row by row (dropna / coerce / dropna). -/
def readRows (rows : List (List (List Char))) : List ExpenseRecord :=
  match rows with
  | [] => []
  | r0 :: _ =>
    if rows.any (fun r => r0.length < r.length) then []
    else (rows.map (normalizeRow r0.length)).filterMap rowToRecord

/-- load_expenses from src/app.py.  none stands for a missing file (the
os.path.exists branch: empty result).  pd.read_csv skips blank lines and
tokenizes the rest; the rows are then cleaned by readRows. -/
def load_expenses (file : Option (List (List Char))) : List ExpenseRecord :=
  match file with
  | none => []
  | some lines => readRows ((lines.filter (fun l => l ≠ [])).map tokenizeLine)

/-- Result of the add-expense flow: the source signals the two validation
failures with distinct st.error messages and writes nothing; on success it
appends exactly one line. -/
inductive AddResult | ok | emptyCategory | nonPositiveAmount
deriving DecidableEq, Repr

/-- add_expense from src/app.py: reject an all-whitespace category first, then
a non-positive amount; otherwise append the one CSV line
date,category,amount with the date rendered by strftime, the category
stripped, and the amount rendered by str. -/
def add_expense (file : List (List Char)) (expense_date : Date) (category : List Char)
    (amount : ℚ) : AddResult × List (List Char) :=
  if stripChars category = [] then (.emptyCategory, file)
  else if amount ≤ 0 then (.nonPositiveAmount, file)
  else (.ok, file ++
    [writeRow3 (dateChars expense_date) (stripChars category) (renderAmount amount)])

/-- Every non-blank line of the file tokenizes to exactly three fields (the
well-formed width; under it the load is line-local). -/
def arity3 (lines : List (List Char)) : Prop :=
  ∀ l ∈ lines, l ≠ [] → (tokenizeLine l).length = 3

theorem normalizeRow_three (r : List (List Char)) (h : r.length = 3) :
    normalizeRow 3 r = r := by
  unfold normalizeRow
  rw [h]
  simp

theorem readRows_three (rows : List (List (List Char))) (h : ∀ r ∈ rows, r.length = 3) :
    readRows rows = rows.filterMap rowToRecord := by
  cases rows with
  | nil => rfl
  | cons r0 rtl =>
    have h0 : r0.length = 3 := h r0 (by simp)
    show (if (r0 :: rtl).any (fun r => r0.length < r.length) then []
      else ((r0 :: rtl).map (normalizeRow r0.length)).filterMap rowToRecord)
        = (r0 :: rtl).filterMap rowToRecord
    have hany : (r0 :: rtl).any (fun r => r0.length < r.length) = false := by
      rw [List.any_eq_false]
      intro r hr
      simp [h r hr, h0]
    rw [hany]
    have hmap : (r0 :: rtl).map (normalizeRow r0.length) = r0 :: rtl := by
      rw [h0]
      conv_rhs => rw [← List.map_id (r0 :: rtl)]
      apply List.map_congr_left
      intro r hr
      simpa using normalizeRow_three r (h r hr)
    rw [hmap]
    simp

theorem load_expenses_arity3 (lines : List (List Char)) (h : arity3 lines) :
    load_expenses (some lines)
      = (lines.filter (fun l => l ≠ [])).filterMap (fun l => rowToRecord (tokenizeLine l)) := by
  show readRows ((lines.filter (fun l => l ≠ [])).map tokenizeLine) = _
  rw [readRows_three _ (by
    intro r hr
    obtain ⟨l, hl, rfl⟩ := List.mem_map.mp hr
    have hm := List.mem_filter.mp hl
    exact h l hm.1 (by simpa using hm.2))]
  rw [List.filterMap_map]
  rfl

theorem load_expenses_append (lines : List (List Char)) (L : List Char)
    (h : arity3 lines) (hL : L ≠ []) (hL3 : (tokenizeLine L).length = 3) :
    load_expenses (some (lines ++ [L]))
      = load_expenses (some lines) ++ (rowToRecord (tokenizeLine L)).toList := by
  have h2 : arity3 (lines ++ [L]) := by
    intro l hl hne
    rcases List.mem_append.mp hl with h1 | h1
    · exact h l h1 hne
    · simp at h1; subst h1; exact hL3
  rw [load_expenses_arity3 _ h2, load_expenses_arity3 _ h]
  rw [List.filter_append, List.filterMap_append]
  congr 1
  have hfs : List.filter (fun l => decide (l ≠ [])) [L] = [L] := by
    simp [List.filter, hL]
  rw [hfs]
  cases hrec : rowToRecord (tokenizeLine L) <;> simp [List.filterMap, hrec]

theorem not_mem_naList_of_digitish (cs : List Char) (hne : cs ≠ [])
    (hall : ∀ ch ∈ cs, isDigitCh ch = true ∨ ch = '.' ∨ ch = '-') : cs ∉ naList := by
  intro hmem
  unfold naList at hmem
  simp only [List.mem_map, List.mem_cons, List.mem_singleton] at hmem
  obtain ⟨s, hs, hdata⟩ := hmem
  subst hdata
  rcases hs with rfl | rfl | rfl | rfl | rfl | rfl | rfl | rfl | rfl | rfl | rfl | rfl | rfl
    | rfl | rfl | rfl | rfl | rfl | hs
  · exact hne rfl
  · exact absurd (hall '#' (by decide)) (by decide)
  · exact absurd (hall '#' (by decide)) (by decide)
  · exact absurd (hall '#' (by decide)) (by decide)
  · exact absurd (hall '#' (by decide)) (by decide)
  · exact absurd (hall '#' (by decide)) (by decide)
  · exact absurd (hall 'N' (by decide)) (by decide)
  · exact absurd (hall 'n' (by decide)) (by decide)
  · exact absurd (hall '#' (by decide)) (by decide)
  · exact absurd (hall '#' (by decide)) (by decide)
  · exact absurd (hall '<' (by decide)) (by decide)
  · exact absurd (hall 'N' (by decide)) (by decide)
  · exact absurd (hall 'N' (by decide)) (by decide)
  · exact absurd (hall 'N' (by decide)) (by decide)
  · exact absurd (hall 'N' (by decide)) (by decide)
  · exact absurd (hall 'N' (by decide)) (by decide)
  · exact absurd (hall 'n' (by decide)) (by decide)
  · exact absurd (hall 'n' (by decide)) (by decide)
  · rcases hs with rfl | hs
    · exact absurd (hall 'n' (by decide)) (by decide)
    · exact absurd hs (List.not_mem_nil s)

theorem dateChars_digit_or_dash (d : Date) :
    ∀ c ∈ dateChars d, isDigitCh c = true ∨ c = '-' := by
  intro c hc
  unfold dateChars at hc
  have hy := allDigits_pad 4 _ (allDigits_renderNat d.year)
  have hm := allDigits_pad 2 _ (allDigits_renderNat d.month)
  have hd := allDigits_pad 2 _ (allDigits_renderNat d.day)
  rcases List.mem_append.mp hc with h1 | h1
  · exact Or.inl ((List.all_eq_true.mp hy) c h1)
  · rcases List.mem_cons.mp h1 with h2 | h2
    · exact Or.inr h2
    · rcases List.mem_append.mp h2 with h3 | h3
      · exact Or.inl ((List.all_eq_true.mp hm) c h3)
      · rcases List.mem_cons.mp h3 with h4 | h4
        · exact Or.inr h4
        · exact Or.inl ((List.all_eq_true.mp hd) c h4)

theorem dateChars_ne_nil (d : Date) : dateChars d ≠ [] := by
  unfold dateChars
  exact List.append_ne_nil_of_left_ne_nil (pad_ne_nil 4 _ (renderNat_ne_nil d.year)) _

theorem dateChars_fieldPlain (d : Date) : fieldPlain (dateChars d) := by
  intro c hc
  rcases dateChars_digit_or_dash d c hc with h1 | h1
  · rintro (rfl | rfl | rfl | rfl) <;> simp [isDigitCh] at h1
  · subst h1; decide

theorem dateChars_not_na (d : Date) : dateChars d ∉ naList :=
  not_mem_naList_of_digitish _ (dateChars_ne_nil d)
    (fun ch hch => by rcases dateChars_digit_or_dash d ch hch with h | h
                      · exact Or.inl h
                      · exact Or.inr (Or.inr h))

theorem renderAmount_ne_nil (q : ℚ) (n : Int) (k : Nat) (hq : 0 < q)
    (h : decExp q = some (n, k)) : renderAmount q ≠ [] := by
  rw [renderAmount_pos_eq q n k hq h]
  exact List.append_ne_nil_of_left_ne_nil (renderNat_ne_nil _) _

theorem renderAmount_fieldPlain (q : ℚ) (n : Int) (k : Nat) (hq : 0 < q)
    (h : decExp q = some (n, k)) : fieldPlain (renderAmount q) := by
  intro c hc
  rcases renderAmount_digit_or_dot q n k hq h c hc with h1 | h1
  · rintro (rfl | rfl | rfl | rfl) <;> simp [isDigitCh] at h1
  · subst h1; decide

theorem renderAmount_not_na (q : ℚ) (n : Int) (k : Nat) (hq : 0 < q)
    (h : decExp q = some (n, k)) : renderAmount q ∉ naList :=
  not_mem_naList_of_digitish _ (renderAmount_ne_nil q n k hq h)
    (fun ch hch => by rcases renderAmount_digit_or_dot q n k hq h ch hch with h1 | h1
                      · exact Or.inl h1
                      · exact Or.inr (Or.inl h1))

theorem writeRow3_ne_nil (f1 f2 f3 : List Char) : writeRow3 f1 f2 f3 ≠ [] := by
  cases henc : encodeField f1 <;> simp [writeRow3, henc]

theorem nil_mem_naList : ([] : List Char) ∈ naList := by decide

/-- The core of the append-then-reload round trip: on a file whose non-blank
lines all have three fields, a validated record is appended as one line and
comes back as exactly one appended record. -/
theorem add_load_roundtrip (file : List (List Char)) (d : Date) (c : List Char) (a : ℚ)
    (n : Int) (k : Nat)
    (hf : arity3 file) (hd : d.valid = true) (hb : inTimestampBounds d = true)
    (hc : stripChars c ∉ naList) (ha : 0 < a) (hdec : decExp a = some (n, k)) :
    (add_expense file d c a).1 = .ok ∧
    (add_expense file d c a).2
      = file ++ [writeRow3 (dateChars d) (stripChars c) (renderAmount a)] ∧
    load_expenses (some (add_expense file d c a).2)
      = load_expenses (some file) ++ [⟨d, stripChars c, a⟩] := by
  have hcne : stripChars c ≠ [] := fun h0 => hc (h0 ▸ nil_mem_naList)
  have hadd : add_expense file d c a
      = (.ok, file ++ [writeRow3 (dateChars d) (stripChars c) (renderAmount a)]) := by
    unfold add_expense
    rw [if_neg hcne, if_neg (not_le.mpr ha)]
  have htok : tokenizeLine (writeRow3 (dateChars d) (stripChars c) (renderAmount a))
      = [dateChars d, stripChars c, renderAmount a] :=
    tokenizeLine_writeRow3 _ _ _ (dateChars_fieldPlain d) (renderAmount_fieldPlain a n k ha hdec)
  have hrec : rowToRecord [dateChars d, stripChars c, renderAmount a]
      = some ⟨d, stripChars c, a⟩ := by
    show (if dateChars d ∈ naList ∨ stripChars c ∈ naList ∨ renderAmount a ∈ naList then none
      else match parseDate (dateChars d), parseAmount (renderAmount a) with
        | some d2, some a2 => some (ExpenseRecord.mk d2 (stripChars c) a2)
        | _, _ => none) = some (ExpenseRecord.mk d (stripChars c) a)
    rw [if_neg (by
      push_neg
      exact ⟨dateChars_not_na d, hc, renderAmount_not_na a n k ha hdec⟩)]
    rw [parseDate_dateChars d hd hb, parseAmount_renderAmount a n k ha hdec]
  refine ⟨by rw [hadd], by rw [hadd], ?_⟩
  rw [hadd]
  show load_expenses (some (file ++ [writeRow3 (dateChars d) (stripChars c) (renderAmount a)]))
    = _
  rw [load_expenses_append file _ hf (writeRow3_ne_nil _ _ _) (by rw [htok]; rfl)]
  rw [htok, hrec]
  rfl

/-- Sum of the amounts of the records in a given category (one groupby cell). -/
def sumAmounts (rs : List ExpenseRecord) (c : List Char) : ℚ :=
  ((rs.filter (fun r => r.category = c)).map (fun r => r.amount)).sum

/-- Month key of a record: its year and month, day discarded (dt.to_period M). -/
def monthKey (r : ExpenseRecord) : Nat × Nat := (r.date.year, r.date.month)

/-- YYYY-MM: the str of a pandas monthly Period. -/
def monthStr (k : Nat × Nat) : List Char :=
  pad 4 (renderNat k.1) ++ '-' :: pad 2 (renderNat k.2)

/-- Sum of the amounts of the records in a given month (one groupby cell). -/
def sumMonth (rs : List ExpenseRecord) (k : Nat × Nat) : ℚ :=
  ((rs.filter (fun r => monthKey r = k)).map (fun r => r.amount)).sum

/-- Keys in order of first occurrence, duplicates dropped (seen accumulator). -/
def dedupFirst {α : Type} [DecidableEq α] : List α → List α → List α
  | _, [] => []
  | seen, k :: ks => if k ∈ seen then dedupFirst seen ks else k :: dedupFirst (k :: seen) ks

/-- Stable insertion into an ascending-sorted list. -/
def insertAsc {α : Type} (le : α → α → Bool) (x : α) : List α → List α
  | [] => [x]
  | y :: ys => if le x y then x :: y :: ys else y :: insertAsc le x ys

/-- Stable ascending insertion sort (the order pandas groupby gives its keys). -/
def sortAsc {α : Type} (le : α → α → Bool) (l : List α) : List α :=
  l.foldr (insertAsc le) []

/-- Python string comparison: lexicographic on code points. -/
def charsLt : List Char → List Char → Bool
  | [], [] => false
  | [], _ :: _ => true
  | _ :: _, [] => false
  | x :: xs, y :: ys => if x < y then true else if y < x then false else charsLt xs ys

/-- Non-strict Python string comparison. -/
def charsLe (a b : List Char) : Bool := charsLt a b || a = b

/-- Chronological order on (year, month) keys. -/
def monthKeyLe (a b : Nat × Nat) : Bool :=
  decide (a.1 < b.1 ∨ (a.1 = b.1 ∧ a.2 ≤ b.2))

/-- Stable descending insertion by total: a row moves past exactly the rows
with strictly greater totals, so rows with equal totals keep their order. -/
def insertDesc (x : (List Char) × ℚ) : List ((List Char) × ℚ) → List ((List Char) × ℚ)
  | [] => [x]
  | y :: ys => if x.2 < y.2 then y :: insertDesc x ys else x :: y :: ys

/-- Stable descending sort by total.  pandas sort-values with ascending False
reverses the array, arg-sorts it ascending and reverses the result, which for
a stable underlying sort is exactly a stable descending sort; numpy's default
quicksort runs as a stable insertion sort at these sizes. -/
def sortDesc (l : List ((List Char) × ℚ)) : List ((List Char) × ℚ) :=
  l.foldr insertDesc []

/-- create_category_summary from src/app.py: groupby category, sum amounts,
one row per category with the keys sorted ascending (Python string order);
then sort-values by total amount, descending. -/
def create_category_summary (rs : List ExpenseRecord) : List ((List Char) × ℚ) :=
  if rs = [] then []
  else sortDesc ((sortAsc charsLe (dedupFirst [] (rs.map (fun r => r.category)))).map
    (fun c => (c, sumAmounts rs c)))

/-- create_monthly_summary from src/app.py: group by the month period of each
date (day discarded), sum amounts, keys ascending, formatted YYYY-MM. -/
def create_monthly_summary (rs : List ExpenseRecord) : List ((List Char) × ℚ) :=
  if rs = [] then []
  else (sortAsc monthKeyLe (dedupFirst [] (rs.map monthKey))).map
    (fun k => (monthStr k, sumMonth rs k))

/-- The date-range filter applied in main (lines 238-243): keep the records
whose date lies in the inclusive interval [start, stop]. -/
def filter_by_date_range (rs : List ExpenseRecord) (start stop : Date) :
    List ExpenseRecord :=
  rs.filter (fun r => dateLeB start r.date && dateLeB r.date stop)

/-- Modelled from the spec for comparison (claim C4): categories grouped in
first-occurrence order, then stable-sorted descending by total, so ties keep
the order in which each category first occurs in the source RecordSet. -/
def categorySummarySpec (rs : List ExpenseRecord) : List ((List Char) × ℚ) :=
  if rs = [] then []
  else sortDesc ((dedupFirst [] (rs.map (fun r => r.category))).map
    (fun c => (c, sumAmounts rs c)))

theorem insertAsc_perm {α : Type} (le : α → α → Bool) (x : α) (l : List α) :
    (insertAsc le x l).Perm (x :: l) := by
  induction l with
  | nil => exact List.Perm.refl _
  | cons z zs ih =>
    unfold insertAsc
    by_cases h : le x z = true
    · rw [if_pos h]
    · rw [if_neg h]
      exact (List.Perm.cons z ih).trans (List.Perm.swap x z zs)

theorem sortAsc_perm {α : Type} (le : α → α → Bool) (l : List α) :
    (sortAsc le l).Perm l := by
  induction l with
  | nil => exact List.Perm.refl _
  | cons x xs ih =>
    show (insertAsc le x (sortAsc le xs)).Perm (x :: xs)
    exact (insertAsc_perm le x (sortAsc le xs)).trans (List.Perm.cons x ih)

theorem insertDesc_perm (x : (List Char) × ℚ) (l : List ((List Char) × ℚ)) :
    (insertDesc x l).Perm (x :: l) := by
  induction l with
  | nil => exact List.Perm.refl _
  | cons z zs ih =>
    unfold insertDesc
    by_cases h : x.2 < z.2
    · rw [if_pos h]
      exact (List.Perm.cons z ih).trans (List.Perm.swap x z zs)
    · rw [if_neg h]

theorem sortDesc_perm (l : List ((List Char) × ℚ)) : (sortDesc l).Perm l := by
  induction l with
  | nil => exact List.Perm.refl _
  | cons x xs ih =>
    show (insertDesc x (sortDesc xs)).Perm (x :: xs)
    exact (insertDesc_perm x (sortDesc xs)).trans (List.Perm.cons x ih)

theorem mem_dedupFirst {α : Type} [DecidableEq α] (l : List α) :
    ∀ seen x, (x ∈ dedupFirst seen l ↔ x ∈ l ∧ x ∉ seen) := by
  induction l with
  | nil => intro seen x; simp [dedupFirst]
  | cons k ks ih =>
    intro seen x
    unfold dedupFirst
    by_cases h : k ∈ seen
    · rw [if_pos h, ih seen x]
      constructor
      · rintro ⟨h1, h2⟩
        exact ⟨by simp [h1], h2⟩
      · rintro ⟨h1, h2⟩
        rcases List.mem_cons.mp h1 with rfl | h3
        · exact absurd h h2
        · exact ⟨h3, h2⟩
    · rw [if_neg h]
      rw [List.mem_cons, ih (k :: seen) x]
      constructor
      · rintro (rfl | ⟨h1, h2⟩)
        · exact ⟨by simp, h⟩
        · exact ⟨by simp [h1], fun hx => h2 (by simp [hx])⟩
      · rintro ⟨h1, h2⟩
        by_cases hxk : x = k
        · exact Or.inl hxk
        · rcases List.mem_cons.mp h1 with rfl | h3
          · exact absurd rfl hxk
          · exact Or.inr ⟨h3, by simp [hxk, h2]⟩

theorem nodup_dedupFirst {α : Type} [DecidableEq α] (l : List α) :
    ∀ seen, (dedupFirst seen l).Nodup := by
  induction l with
  | nil => intro seen; simp [dedupFirst]
  | cons k ks ih =>
    intro seen
    unfold dedupFirst
    by_cases h : k ∈ seen
    · rw [if_pos h]; exact ih seen
    · rw [if_neg h]
      refine List.nodup_cons.mpr ⟨?_, ih (k :: seen)⟩
      intro hk
      exact ((mem_dedupFirst ks (k :: seen) k).mp hk).2 (by simp)

theorem pairwise_insertAsc {α : Type} (le : α → α → Bool)
    (htot : ∀ a b, le a b = true ∨ le b a = true)
    (htrans : ∀ a b c, le a b = true → le b c = true → le a c = true)
    (x : α) (l : List α) (hl : l.Pairwise (fun a b => le a b = true)) :
    (insertAsc le x l).Pairwise (fun a b => le a b = true) := by
  induction l with
  | nil => simp [insertAsc]
  | cons y ys ih =>
    rcases List.pairwise_cons.mp hl with ⟨hy, hys⟩
    unfold insertAsc
    by_cases h : le x y = true
    · rw [if_pos h]
      refine List.pairwise_cons.mpr ⟨?_, hl⟩
      intro z hz
      rcases List.mem_cons.mp hz with rfl | hz2
      · exact h
      · exact htrans x y z h (hy z hz2)
    · rw [if_neg h]
      have hyx : le y x = true := (htot x y).resolve_left h
      refine List.pairwise_cons.mpr ⟨?_, ih hys⟩
      intro z hz
      rcases List.mem_cons.mp ((insertAsc_perm le x ys).mem_iff.mp hz) with rfl | hz2
      · exact hyx
      · exact hy z hz2

theorem pairwise_sortAsc {α : Type} (le : α → α → Bool)
    (htot : ∀ a b, le a b = true ∨ le b a = true)
    (htrans : ∀ a b c, le a b = true → le b c = true → le a c = true)
    (l : List α) : (sortAsc le l).Pairwise (fun a b => le a b = true) := by
  induction l with
  | nil => simp [sortAsc]
  | cons x xs ih => exact pairwise_insertAsc le htot htrans x (sortAsc le xs) ih

theorem charsLt_irrefl : ∀ a : List Char, charsLt a a = false := by
  intro a
  induction a with
  | nil => rfl
  | cons x xs ih =>
    unfold charsLt
    rw [if_neg (lt_irrefl x), if_neg (lt_irrefl x)]
    exact ih

theorem charsLt_trans : ∀ a b c : List Char,
    charsLt a b = true → charsLt b c = true → charsLt a c = true := by
  intro a
  induction a with
  | nil =>
    intro b c hab hbc
    cases b with
    | nil => cases hab
    | cons y ys =>
      cases c with
      | nil => cases hbc
      | cons z zs => rfl
  | cons x xs ih =>
    intro b c hab hbc
    cases b with
    | nil => cases hab
    | cons y ys =>
      cases c with
      | nil => cases hbc
      | cons z zs =>
        unfold charsLt at hab hbc ⊢
        by_cases hxy : x < y
        · by_cases hyz : y < z
          · rw [if_pos (lt_trans hxy hyz)]
          · rw [if_neg hyz] at hbc
            by_cases hzy : z < y
            · rw [if_pos hzy] at hbc; cases hbc
            · have : y = z := le_antisymm (not_lt.mp hzy) (not_lt.mp hyz)
              rw [if_pos (this ▸ hxy)]
        · rw [if_neg hxy] at hab
          by_cases hyx : y < x
          · rw [if_pos hyx] at hab; cases hab
          · have hxyeq : x = y := le_antisymm (not_lt.mp hyx) (not_lt.mp hxy)
            rw [if_neg hyx] at hab
            by_cases hyz : y < z
            · rw [if_pos (hxyeq ▸ hyz)]
            · rw [if_neg hyz] at hbc
              by_cases hzy : z < y
              · rw [if_pos hzy] at hbc; cases hbc
              · have hyzeq : y = z := le_antisymm (not_lt.mp hzy) (not_lt.mp hyz)
                rw [if_neg hzy] at hbc
                rw [if_neg (hxyeq ▸ hyz), if_neg (by rw [hxyeq, hyzeq] at hxy ⊢; exact hxy)]
                exact ih ys zs hab hbc

theorem charsLt_total : ∀ a b : List Char,
    charsLt a b = true ∨ charsLt b a = true ∨ a = b := by
  intro a
  induction a with
  | nil =>
    intro b
    cases b with
    | nil => exact Or.inr (Or.inr rfl)
    | cons y ys => exact Or.inl rfl
  | cons x xs ih =>
    intro b
    cases b with
    | nil => exact Or.inr (Or.inl rfl)
    | cons y ys =>
      unfold charsLt
      by_cases hxy : x < y
      · exact Or.inl (by rw [if_pos hxy])
      · by_cases hyx : y < x
        · exact Or.inr (Or.inl (by rw [if_pos hyx]))
        · have hxyeq : x = y := le_antisymm (not_lt.mp hyx) (not_lt.mp hxy)
          rcases ih ys with h1 | h1 | h1
          · exact Or.inl (by rw [if_neg hxy, if_neg hyx]; exact h1)
          · exact Or.inr (Or.inl (by rw [if_neg hyx, if_neg hxy]; exact h1))
          · exact Or.inr (Or.inr (by rw [hxyeq, h1]))

theorem charsLe_total (a b : List Char) : charsLe a b = true ∨ charsLe b a = true := by
  unfold charsLe
  rcases charsLt_total a b with h | h | h
  · exact Or.inl (by simp [h])
  · exact Or.inr (by simp [h])
  · exact Or.inl (by simp [h])

theorem charsLe_trans (a b c : List Char) (h1 : charsLe a b = true) (h2 : charsLe b c = true) :
    charsLe a c = true := by
  unfold charsLe at *
  simp only [Bool.or_eq_true, decide_eq_true_eq] at *
  rcases h1 with h1 | rfl
  · rcases h2 with h2 | rfl
    · exact Or.inl (charsLt_trans a b c h1 h2)
    · exact Or.inl h1
  · exact h2

theorem charsLt_of_le_ne (a b : List Char) (h : charsLe a b = true) (hne : a ≠ b) :
    charsLt a b = true := by
  unfold charsLe at h
  simp only [Bool.or_eq_true, decide_eq_true_eq] at h
  tauto

theorem monthKeyLe_total (a b : Nat × Nat) : monthKeyLe a b = true ∨ monthKeyLe b a = true := by
  unfold monthKeyLe
  simp only [decide_eq_true_eq]
  omega

theorem monthKeyLe_trans (a b c : Nat × Nat) (h1 : monthKeyLe a b = true)
    (h2 : monthKeyLe b c = true) : monthKeyLe a c = true := by
  unfold monthKeyLe at *
  simp only [decide_eq_true_eq] at *
  omega

/-- The row order the category summary satisfies: strictly greater total
first; on equal totals, category name ascending (the stable descending sort
receives the rows in ascending category order). -/
def descLex (a b : (List Char) × ℚ) : Prop :=
  b.2 < a.2 ∨ (b.2 = a.2 ∧ charsLt a.1 b.1 = true)

theorem pairwise_insertDesc (x : (List Char) × ℚ) (l : List ((List Char) × ℚ))
    (hl : l.Pairwise descLex) (hnames : ∀ y ∈ l, charsLt x.1 y.1 = true) :
    (insertDesc x l).Pairwise descLex := by
  induction l with
  | nil => simp [insertDesc]
  | cons y ys ih =>
    rcases List.pairwise_cons.mp hl with ⟨hy, hys⟩
    unfold insertDesc
    by_cases h : x.2 < y.2
    · rw [if_pos h]
      refine List.pairwise_cons.mpr ⟨?_, ih hys (fun z hz => hnames z (by simp [hz]))⟩
      intro z hz
      rcases List.mem_cons.mp ((insertDesc_perm x ys).mem_iff.mp hz) with rfl | hz2
      · exact Or.inl h
      · exact hy z hz2
    · rw [if_neg h]
      refine List.pairwise_cons.mpr ⟨?_, hl⟩
      intro z hz
      rcases List.mem_cons.mp hz with rfl | hz2
      · rcases lt_or_eq_of_le (not_lt.mp h) with h2 | h2
        · exact Or.inl h2
        · exact Or.inr ⟨h2, hnames z (by simp)⟩
      · have hyz := hy z hz2
        have hzy : z.2 ≤ y.2 := by
          rcases hyz with h3 | h3
          · exact le_of_lt h3
          · exact le_of_eq h3.1
        rcases lt_or_eq_of_le (le_trans hzy (not_lt.mp h)) with h3 | h3
        · exact Or.inl h3
        · exact Or.inr ⟨h3, hnames z (by simp [hz2])⟩

theorem pairwise_sortDesc_of_names (l : List ((List Char) × ℚ))
    (hl : l.Pairwise (fun a b => charsLt a.1 b.1 = true)) :
    (sortDesc l).Pairwise descLex := by
  induction l with
  | nil => simp [sortDesc]
  | cons x xs ih =>
    rcases List.pairwise_cons.mp hl with ⟨hx, hxs⟩
    show (insertDesc x (sortDesc xs)).Pairwise descLex
    refine pairwise_insertDesc x (sortDesc xs) (ih hxs) ?_
    intro y hy
    exact hx y ((sortDesc_perm xs).mem_iff.mp hy)

theorem sum_filter_split (p : ExpenseRecord → Bool) (rs : List ExpenseRecord) :
    ((rs.filter p).map (fun r => r.amount)).sum
      + ((rs.filter (fun r => !(p r))).map (fun r => r.amount)).sum
      = (rs.map (fun r => r.amount)).sum := by
  induction rs with
  | nil => simp
  | cons r rt ih =>
    cases hp : p r
    · simp [List.filter_cons, hp]
      linarith [ih]
    · simp [List.filter_cons, hp]
      linarith [ih]

theorem sum_groups {κ : Type} [DecidableEq κ] (f : ExpenseRecord → κ) :
    ∀ (keys : List κ) (rs : List ExpenseRecord), keys.Nodup → (∀ r ∈ rs, f r ∈ keys) →
      (keys.map (fun k => ((rs.filter (fun r => f r = k)).map (fun r => r.amount)).sum)).sum
        = (rs.map (fun r => r.amount)).sum := by
  intro keys
  induction keys with
  | nil =>
    intro rs _ hcov
    cases rs with
    | nil => simp
    | cons r rt => exact absurd (hcov r (by simp)) (List.not_mem_nil _)
  | cons k ks ih =>
    intro rs hnd hcov
    rcases List.nodup_cons.mp hnd with ⟨hk, hks⟩
    simp only [List.map_cons, List.sum_cons]
    have htail : ∀ k2 ∈ ks,
        rs.filter (fun r => f r = k2)
          = (rs.filter (fun r => !(decide (f r = k)))).filter (fun r => f r = k2) := by
      intro k2 hk2
      rw [List.filter_filter]
      apply List.filter_congr
      intro r _
      by_cases hf : f r = k
      · have hne : k2 ≠ k := fun e => hk (e ▸ hk2)
        have h2 : f r ≠ k2 := by
          rw [hf]
          intro e
          exact hne e.symm
        simp [hf, h2]
        intro e
        exact hne e.symm
      · simp [hf]
    have hmapeq : ks.map (fun k2 => ((rs.filter (fun r => f r = k2)).map
          (fun r => r.amount)).sum)
        = ks.map (fun k2 => (((rs.filter (fun r => !(decide (f r = k)))).filter
            (fun r => f r = k2)).map (fun r => r.amount)).sum) := by
      apply List.map_congr_left
      intro k2 hk2
      rw [htail k2 hk2]
    rw [hmapeq]
    rw [ih (rs.filter (fun r => !(decide (f r = k)))) hks (by
      intro r hr
      have hm := List.mem_filter.mp hr
      rcases List.mem_cons.mp (hcov r hm.1) with he | he
      · exfalso
        have := hm.2
        simp [he] at this
      · exact he)]
    exact sum_filter_split (fun r => decide (f r = k)) rs

theorem mem_catKeys (rs : List ExpenseRecord) (c : List Char) :
    c ∈ sortAsc charsLe (dedupFirst [] (rs.map (fun r => r.category)))
      ↔ c ∈ rs.map (fun r => r.category) := by
  rw [(sortAsc_perm charsLe _).mem_iff, mem_dedupFirst]
  simp

theorem mem_monthKeys (rs : List ExpenseRecord) (k : Nat × Nat) :
    k ∈ sortAsc monthKeyLe (dedupFirst [] (rs.map monthKey))
      ↔ k ∈ rs.map monthKey := by
  rw [(sortAsc_perm monthKeyLe _).mem_iff, mem_dedupFirst]
  simp

theorem mem_create_category_summary (rs : List ExpenseRecord) (p : (List Char) × ℚ) :
    p ∈ create_category_summary rs
      ↔ (∃ r ∈ rs, r.category = p.1) ∧ p.2 = sumAmounts rs p.1 := by
  unfold create_category_summary
  by_cases hrs : rs = []
  · subst hrs
    simp
  · rw [if_neg hrs]
    rw [(sortDesc_perm _).mem_iff, List.mem_map]
    constructor
    · rintro ⟨c, hc, rfl⟩
      rw [mem_catKeys] at hc
      obtain ⟨r, hr, rfl⟩ := List.mem_map.mp hc
      exact ⟨⟨r, hr, rfl⟩, rfl⟩
    · rintro ⟨⟨r, hr, hcat⟩, hsnd⟩
      refine ⟨p.1, (mem_catKeys rs p.1).mpr (List.mem_map.mpr ⟨r, hr, hcat⟩), ?_⟩
      cases p with
      | mk c t =>
        simp only at hsnd
        rw [hsnd]

theorem mem_create_monthly_summary (rs : List ExpenseRecord) (p : (List Char) × ℚ) :
    p ∈ create_monthly_summary rs
      ↔ ∃ y m, (∃ r ∈ rs, monthKey r = (y, m))
          ∧ p = (monthStr (y, m), sumMonth rs (y, m)) := by
  unfold create_monthly_summary
  by_cases hrs : rs = []
  · subst hrs
    simp
  · rw [if_neg hrs]
    rw [List.mem_map]
    constructor
    · rintro ⟨k, hk, rfl⟩
      rw [mem_monthKeys] at hk
      obtain ⟨r, hr, hkey⟩ := List.mem_map.mp hk
      exact ⟨k.1, k.2, ⟨r, hr, by rw [hkey]⟩, rfl⟩
    · rintro ⟨y, m, ⟨r, hr, hkey⟩, rfl⟩
      exact ⟨(y, m), (mem_monthKeys rs (y, m)).mpr (List.mem_map.mpr ⟨r, hr, hkey⟩), rfl⟩

theorem nodup_fst_category_summary (rs : List ExpenseRecord) :
    ((create_category_summary rs).map Prod.fst).Nodup := by
  unfold create_category_summary
  by_cases hrs : rs = []
  · simp [hrs]
  · rw [if_neg hrs]
    have hperm := (sortDesc_perm ((sortAsc charsLe
      (dedupFirst [] (rs.map (fun r => r.category)))).map
        (fun c => (c, sumAmounts rs c)))).map Prod.fst
    rw [hperm.nodup_iff]
    rw [List.map_map]
    have : (Prod.fst ∘ fun c => (c, sumAmounts rs c)) = id := rfl
    rw [this, List.map_id]
    exact (sortAsc_perm charsLe _).nodup_iff.mpr (nodup_dedupFirst _ [])

theorem sorted_category_summary (rs : List ExpenseRecord) :
    (create_category_summary rs).Pairwise descLex := by
  unfold create_category_summary
  by_cases hrs : rs = []
  · simp [hrs]
  · rw [if_neg hrs]
    apply pairwise_sortDesc_of_names
    rw [List.pairwise_map]
    have hle := pairwise_sortAsc charsLe charsLe_total charsLe_trans
      (dedupFirst [] (rs.map (fun r => r.category)))
    have hnd : (sortAsc charsLe (dedupFirst [] (rs.map (fun r => r.category)))).Nodup :=
      (sortAsc_perm charsLe _).nodup_iff.mpr (nodup_dedupFirst _ [])
    have := List.Pairwise.and hle hnd
    exact this.imp (fun h => charsLt_of_le_ne _ _ h.1 h.2)

theorem mkValidDate_valid (y m dd : Nat) (d : Date) (h : mkValidDate y m dd = some d) :
    d.valid = true ∧ inTimestampBounds d = true := by
  unfold mkValidDate at h
  split at h
  · next hcond =>
    obtain rfl : _ = d := Option.some_inj.mp h
    rw [Bool.and_eq_true] at hcond
    exact hcond
  · cases h

theorem parseDate_valid (cs : List Char) (d : Date) (h : parseDate cs = some d) :
    d.valid = true ∧ inTimestampBounds d = true := by
  unfold parseDate at h
  split at h <;> (try split at h) <;>
    first
    | exact mkValidDate_valid _ _ _ _ h
    | cases h

theorem rowToRecord_some (row : List (List Char)) (r : ExpenseRecord)
    (h : rowToRecord row = some r) :
    r.date.valid = true ∧ inTimestampBounds r.date = true ∧ r.category ∉ naList := by
  rcases row with _ | ⟨df, _ | ⟨cf, _ | ⟨af, _ | ⟨x, xs⟩⟩⟩⟩
  · rw [show rowToRecord [] = none from rfl] at h
    cases h
  · rw [show rowToRecord [df] = none from rfl] at h
    cases h
  · rw [show rowToRecord [df, cf] = none from rfl] at h
    cases h
  · have h2 : (if df ∈ naList ∨ cf ∈ naList ∨ af ∈ naList then none
        else match parseDate df, parseAmount af with
          | some d2, some a2 => some (ExpenseRecord.mk d2 cf a2)
          | _, _ => none) = some r := h
    clear h
    split at h2
    · cases h2
    · next hna =>
      push_neg at hna
      rcases hd : parseDate df with _ | d2
      · rw [hd] at h2
        rcases ha : parseAmount af with _ | a2 <;> rw [ha] at h2 <;> cases h2
      · rcases ha : parseAmount af with _ | a2
        · rw [hd, ha] at h2
          cases h2
        · rw [hd, ha] at h2
          obtain rfl : _ = r := Option.some_inj.mp h2
          obtain ⟨h1v, h2v⟩ := parseDate_valid _ _ hd
          exact ⟨h1v, h2v, hna.2.1⟩
  · rw [show rowToRecord (df :: cf :: af :: x :: xs) = none from rfl] at h
    cases h

theorem mem_readRows (rows : List (List (List Char))) (r : ExpenseRecord)
    (h : r ∈ readRows rows) : ∃ row, rowToRecord row = some r := by
  unfold readRows at h
  split at h
  · cases h
  · split at h
    · cases h
    · obtain ⟨row, _, hrow⟩ := List.mem_filterMap.mp h
      exact ⟨row, hrow⟩

theorem comma_not_na (cs : List Char) (h : ',' ∈ cs) : cs ∉ naList := by
  intro hmem
  have hall : ∀ s ∈ naList, ',' ∉ s := by decide
  exact hall cs hmem h

/-- Number of digits after the decimal point of a rendered amount field. -/
def fracDigitCount (cs : List Char) : Nat :=
  match splitOnChar '.' cs with
  | [_, fp] => fp.length
  | _ => 0

/-- Claim C6: for every input where the trimmed category is empty or the
amount is non-positive, add_expense fails - EmptyCategory first when both
rules are violated, since the category check runs first - and the backing
file is returned unchanged (no line is written). -/
theorem c6_validation_failures (file : List (List Char)) (d : Date) (c : List Char)
    (a : ℚ) :
    (stripChars c = [] → add_expense file d c a = (AddResult.emptyCategory, file)) ∧
    (stripChars c ≠ [] → a ≤ 0 → add_expense file d c a = (AddResult.nonPositiveAmount, file)) := by
  constructor
  · intro h
    unfold add_expense
    rw [if_pos h]
  · intro h1 h2
    unfold add_expense
    rw [if_neg h1, if_pos h2]

/-- Claim C8: the date-range filter keeps exactly the records whose date lies
in the inclusive interval from start to stop, and when start is after stop it
returns the empty record set (no error, no bound swapping). -/
theorem c8_date_range_filter (rs : List ExpenseRecord) (start stop : Date) :
    (∀ r : ExpenseRecord, r ∈ filter_by_date_range rs start stop
        ↔ r ∈ rs ∧ (dateLeB start r.date = true ∧ dateLeB r.date stop = true)) ∧
    (dateLtB stop start = true → filter_by_date_range rs start stop = []) := by
  constructor
  · intro r
    unfold filter_by_date_range
    rw [List.mem_filter]
    simp [Bool.and_eq_true]
  · intro h
    unfold filter_by_date_range
    rw [List.filter_eq_nil_iff]
    intro r _ hcon
    rw [Bool.and_eq_true] at hcon
    have hle := dateLeB_trans start r.date stop hcon.1 hcon.2
    rw [dateLeB_not_lt start stop hle] at h
    cases h

/-- Claim C9: the monthly summary totals and the category summary totals each
sum to the same grand total as summing every record amount directly - the
aggregations conserve the total. -/
theorem c9_total_conservation (rs : List ExpenseRecord) :
    ((create_monthly_summary rs).map (fun p => p.2)).sum
      = (rs.map (fun r => r.amount)).sum ∧
    ((create_category_summary rs).map (fun p => p.2)).sum
      = (rs.map (fun r => r.amount)).sum := by
  constructor
  · unfold create_monthly_summary
    by_cases hrs : rs = []
    · subst hrs
      simp
    · rw [if_neg hrs]
      rw [List.map_map]
      have hcomp : ((fun p : (List Char) × ℚ => p.2) ∘ fun k => (monthStr k, sumMonth rs k))
          = fun k => sumMonth rs k := rfl
      rw [hcomp]
      have hnd : (sortAsc monthKeyLe (dedupFirst [] (rs.map monthKey))).Nodup :=
        (sortAsc_perm monthKeyLe _).nodup_iff.mpr (nodup_dedupFirst _ [])
      have hcov : ∀ r ∈ rs, monthKey r ∈ sortAsc monthKeyLe (dedupFirst [] (rs.map monthKey)) :=
        fun r hr => (mem_monthKeys rs (monthKey r)).mpr (List.mem_map.mpr ⟨r, hr, rfl⟩)
      exact sum_groups monthKey _ rs hnd hcov
  · unfold create_category_summary
    by_cases hrs : rs = []
    · subst hrs
      simp
    · rw [if_neg hrs]
      have hperm := (sortDesc_perm ((sortAsc charsLe
        (dedupFirst [] (rs.map (fun r => r.category)))).map
          (fun c => (c, sumAmounts rs c)))).map (fun p : (List Char) × ℚ => p.2)
      rw [hperm.sum_eq]
      rw [List.map_map]
      have hcomp : ((fun p : (List Char) × ℚ => p.2) ∘ fun c => (c, sumAmounts rs c))
          = fun c => sumAmounts rs c := rfl
      rw [hcomp]
      have hnd : (sortAsc charsLe (dedupFirst [] (rs.map (fun r => r.category)))).Nodup :=
        (sortAsc_perm charsLe _).nodup_iff.mpr (nodup_dedupFirst _ [])
      have hcov : ∀ r ∈ rs, r.category
          ∈ sortAsc charsLe (dedupFirst [] (rs.map (fun r => r.category))) :=
        fun r hr => (mem_catKeys rs r.category).mpr (List.mem_map.mpr ⟨r, hr, rfl⟩)
      exact sum_groups (fun r => r.category) _ rs hnd hcov

/-- Claim C7: the monthly summary groups records by year and month (day
discarded) under keys formatted YYYY-MM, summing amounts per group; an empty
record set gives an empty summary, and the two-record example of the spec
yields exactly the two rows 2024-01 with 10 and 2024-02 with 20. -/
theorem c7_monthly_summary (rs : List ExpenseRecord) :
    (create_monthly_summary [] = []) ∧
    (∀ p : (List Char) × ℚ, p ∈ create_monthly_summary rs
        ↔ ∃ y m, (∃ r ∈ rs, monthKey r = (y, m))
            ∧ p = (monthStr (y, m), sumMonth rs (y, m))) ∧
    create_monthly_summary
        [⟨⟨2024, 1, 15⟩, String.data "Food", 10⟩, ⟨⟨2024, 2, 1⟩, String.data "Food", 20⟩]
      = [(String.data "2024-01", 10), (String.data "2024-02", 20)] := by
  refine ⟨rfl, mem_create_monthly_summary rs, by decide⟩

/-- Claim C4 (amended): the category summary has one row per distinct
category carrying that category's total, ordered descending by total; ties
between equal totals are broken by category name ascending - the groupby
step pre-sorts the categories alphabetically and the stable descending sort
keeps that order on ties - not by first occurrence in the record set. -/
theorem c4_category_summary_order (rs : List ExpenseRecord) :
    (∀ p : (List Char) × ℚ, p ∈ create_category_summary rs
        ↔ (∃ r ∈ rs, r.category = p.1) ∧ p.2 = sumAmounts rs p.1) ∧
    ((create_category_summary rs).map Prod.fst).Nodup ∧
    (create_category_summary rs).Pairwise descLex :=
  ⟨mem_create_category_summary rs, nodup_fst_category_summary rs,
    sorted_category_summary rs⟩

/-- Claim C4 counterexample: two categories A and B with equal totals, B first
in the record set.  The code (groupby sorts keys, then a stable descending
sort) emits A before B; the spec's first-seen tie-break emits B before A. -/
theorem c4_tiebreak_counterexample :
    create_category_summary
        [⟨⟨2024, 1, 2⟩, String.data "B", 10⟩, ⟨⟨2024, 1, 1⟩, String.data "A", 10⟩]
      = [(String.data "A", 10), (String.data "B", 10)] ∧
    categorySummarySpec
        [⟨⟨2024, 1, 2⟩, String.data "B", 10⟩, ⟨⟨2024, 1, 1⟩, String.data "A", 10⟩]
      = [(String.data "B", 10), (String.data "A", 10)] := by
  decide

/-- Claim C5 (amended): on valid input with a plain (unquoted) trimmed
category, add_expense appends exactly one line date,category,amount - the
date formatted YYYY-MM-DD, the category trimmed verbatim - and the amount is
rendered as the shortest decimal with at least ONE fraction digit (not
necessarily two: str(10.5) is 10.5). -/
theorem c5_append_one_line (file : List (List Char)) (d : Date) (c : List Char)
    (a : ℚ) (n : Int) (k : Nat)
    (hc : stripChars c ≠ []) (hq : needsQuote (stripChars c) = false)
    (ha : 0 < a) (hdec : decExp a = some (n, k)) :
    (add_expense file d c a).2
      = file ++ [dateChars d ++ ',' :: (stripChars c ++ ',' :: renderAmount a)] ∧
    fracDigitCount (renderAmount a) = k ∧ 1 ≤ k := by
  have hk1 := (decExp_some a n k hdec).1
  refine ⟨?_, ?_, hk1⟩
  · unfold add_expense
    rw [if_neg hc, if_neg (not_le.mpr ha)]
    unfold writeRow3
    rw [encodeField_plain _ (dateChars_fieldPlain d),
      encodeField_plain _ (fieldPlain_of_not_needsQuote _ hq),
      encodeField_plain _ (renderAmount_fieldPlain a n k ha hdec)]
  · rw [renderAmount_pos_eq a n k ha hdec]
    have hIdig := allDigits_renderNat (n.natAbs / 10 ^ k)
    have hFdig := allDigits_pad k _ (allDigits_renderNat (n.natAbs % 10 ^ k))
    have hnodotI : ∀ x ∈ renderNat (n.natAbs / 10 ^ k), x ≠ '.' :=
      fun x hx => isDigitCh_ne x '.' ((List.all_eq_true.mp hIdig) x hx) rfl
    have hnodotF : ∀ x ∈ pad k (renderNat (n.natAbs % 10 ^ k)), x ≠ '.' :=
      fun x hx => isDigitCh_ne x '.' ((List.all_eq_true.mp hFdig) x hx) rfl
    unfold fracDigitCount
    rw [splitOnChar_append_sep '.' _ _ hnodotI, splitOnChar_no_sep '.' _ hnodotF]
    exact length_renderFrac (n.natAbs) k hk1

/-- Claim C5 witness: appending (2024-01-15, Food, 10.5) writes the one line
2024-01-15,Food,10.5 whose amount field carries k = 1 fraction digit. -/
theorem c5_append_one_line_witness :
    (add_expense [] ⟨2024, 1, 15⟩ (String.data "Food") (21/2)).2
      = [] ++ [dateChars ⟨2024, 1, 15⟩
          ++ ',' :: (stripChars (String.data "Food") ++ ',' :: renderAmount (21/2))] ∧
    fracDigitCount (renderAmount (21/2)) = 1 ∧ 1 ≤ 1 :=
  c5_append_one_line [] ⟨2024, 1, 15⟩ (String.data "Food") (21/2) 105 1
    (by decide) (by decide) (by decide) (by decide)

/-- Claim C5 counterexample: the written line for amount 10.5 is
2024-01-15,Food,10.5 - its amount field has one fraction digit, not the
at-least-two the claim states. -/
theorem c5_fraction_digits_counterexample :
    (add_expense [] ⟨2024, 1, 15⟩ (String.data "Food") (21/2)).2
      = [String.data "2024-01-15,Food,10.5"] ∧
    fracDigitCount (String.data "10.5") = 1 ∧ ¬ 2 ≤ fracDigitCount (String.data "10.5") := by
  decide

/-- Claim C1 (amended): for a date inside the pandas Timestamp range, an
amount with a finite decimal expansion, and a category whose trimmed, line
break free text is not one of the reader's NA sentinel strings, and over a
backing file whose non-blank lines all have exactly three fields,
add_expense followed by load_expenses yields the previous record set extended
with exactly the submitted record (date, trimmed category, amount). -/
theorem c1_encode_decode_roundtrip (file : List (List Char)) (d : Date) (c : List Char)
    (a : ℚ) (n : Int) (k : Nat)
    (hf : arity3 file) (hd : d.valid = true) (hb : inTimestampBounds d = true)
    (hc : stripChars c ∉ naList)
    (hcr : ∀ ch ∈ stripChars c, ¬(ch = '\r' ∨ ch = '\n'))
    (ha : 0 < a) (hdec : decExp a = some (n, k)) :
    (add_expense file d c a).1 = AddResult.ok ∧
    load_expenses (some (add_expense file d c a).2)
      = load_expenses (some file) ++ [⟨d, stripChars c, a⟩] :=
  ⟨(add_load_roundtrip file d c a n k hf hd hb hc ha hdec).1,
   (add_load_roundtrip file d c a n k hf hd hb hc ha hdec).2.2⟩

/-- Claim C1 witness: submitting (2024-01-15, " Food ", 10.5) on an empty
store and reloading yields exactly the one record with the trimmed
category. -/
theorem c1_encode_decode_roundtrip_witness :
    (add_expense [] ⟨2024, 1, 15⟩ (String.data " Food ") (21/2)).1 = AddResult.ok ∧
    load_expenses (some (add_expense [] ⟨2024, 1, 15⟩ (String.data " Food ") (21/2)).2)
      = load_expenses (some []) ++ [⟨⟨2024, 1, 15⟩, stripChars (String.data " Food "), 21/2⟩] :=
  c1_encode_decode_roundtrip [] ⟨2024, 1, 15⟩ (String.data " Food ") (21/2) 105 1
    (by intro l hl; cases hl) (by decide) (by decide) (by decide) (by decide)
    (by decide) (by decide)

/-- Claim C1 counterexample: the category nan satisfies the claim's
hypotheses (positive amount, non-empty trimmed category), add_expense accepts
and writes it, yet reload returns the empty record set - the reader treats
the written field as missing data, so the round trip loses the record. -/
theorem c1_nan_category_counterexample :
    (0 : ℚ) < 5 ∧ stripChars (String.data "nan") ≠ [] ∧
    (add_expense [] ⟨2024, 1, 15⟩ (String.data "nan") 5).1 = AddResult.ok ∧
    (add_expense [] ⟨2024, 1, 15⟩ (String.data "nan") 5).2
      = [String.data "2024-01-15,nan,5.0"] ∧
    load_expenses (some (add_expense [] ⟨2024, 1, 15⟩ (String.data "nan") 5).2) = [] := by
  decide

/-- Claim C2 (amended): when every non-blank line has exactly three fields,
reload is line-local - each malformed line (non-numeric amount, unparseable
date, missing or NA field) is dropped individually while every well-formed
line is kept - and the spec's concrete case holds: one well-formed line plus
one line with a non-numeric amount loads as exactly the well-formed record.
But a line with MORE fields than the first row aborts the whole load (the
pandas tokenizer error is caught and an empty record set returned). -/
theorem c2_malformed_line_tolerance :
    (∀ lines : List (List Char), arity3 lines →
      load_expenses (some lines)
        = (lines.filter (fun l => l ≠ [])).filterMap (fun l => rowToRecord (tokenizeLine l))) ∧
    load_expenses (some [String.data "2024-01-01,Food,5.0", String.data "2024-01-02,Bar,abc"])
      = [⟨⟨2024, 1, 1⟩, String.data "Food", 5⟩] :=
  ⟨load_expenses_arity3, by decide⟩

/-- Claim C2 counterexample: a well-formed line loads alone to one record,
but adding a single four-field line makes the whole load return the empty
record set - the malformed line aborts the load instead of being dropped. -/
theorem c2_overwide_line_counterexample :
    load_expenses (some [String.data "2024-01-01,Food,5.0"])
      = [⟨⟨2024, 1, 1⟩, String.data "Food", 5⟩] ∧
    load_expenses (some [String.data "2024-01-01,Food,5.0", String.data "2024-01-02,Bar,6,7"])
      = [] := by
  decide

/-- Claim C3 (amended): every record returned by reload has a valid calendar
date inside the Timestamp range and a present, non-NA (hence nonempty)
category field - but reload does not enforce amount positivity nor that the
category is non-blank after trimming. -/
theorem c3_reload_invariants (lines : List (List Char)) (r : ExpenseRecord)
    (h : r ∈ load_expenses (some lines)) :
    r.date.valid = true ∧ inTimestampBounds r.date = true ∧ r.category ∉ naList ∧
      r.category ≠ [] := by
  obtain ⟨row, hrow⟩ := mem_readRows _ r h
  obtain ⟨h1, h2, h3⟩ := rowToRecord_some row r hrow
  exact ⟨h1, h2, h3, fun he => h3 (he ▸ nil_mem_naList)⟩

/-- Claim C3 witness: the record loaded from 2024-01-15,Food,10.5 has a
valid in-range date and a present category. -/
theorem c3_reload_invariants_witness :
    (⟨⟨2024, 1, 15⟩, String.data "Food", 21/2⟩ : ExpenseRecord).date.valid = true ∧
    inTimestampBounds (⟨⟨2024, 1, 15⟩, String.data "Food", 21/2⟩ : ExpenseRecord).date = true ∧
    (⟨⟨2024, 1, 15⟩, String.data "Food", 21/2⟩ : ExpenseRecord).category ∉ naList ∧
    (⟨⟨2024, 1, 15⟩, String.data "Food", 21/2⟩ : ExpenseRecord).category ≠ [] :=
  c3_reload_invariants [String.data "2024-01-15,Food,10.5"] _ (by decide)

/-- Claim C3 counterexample: the line 2024-01-01,(spaces),-5.0 survives
reload as a record whose amount is negative and whose category trims to
empty - both ExpenseRecord invariants of the claim are violated. -/
theorem c3_invariant_counterexample :
    load_expenses (some [String.data "2024-01-01,   ,-5.0"])
      = [⟨⟨2024, 1, 1⟩, String.data "   ", -5⟩] ∧
    (-5 : ℚ) ≤ 0 ∧ stripChars (String.data "   ") = [] := by
  decide

/-- Claim C10: a valid record whose trimmed category contains a comma is
written with the category enclosed in quotes, the line still tokenizes into
exactly the three fields date, category, amount, and the record survives the
append-then-reload round trip intact. -/
theorem c10_comma_category_roundtrip (file : List (List Char)) (d : Date) (c : List Char)
    (a : ℚ) (n : Int) (k : Nat)
    (hf : arity3 file) (hd : d.valid = true) (hb : inTimestampBounds d = true)
    (hcomma : ',' ∈ stripChars c)
    (hcr : ∀ ch ∈ stripChars c, ¬(ch = '\r' ∨ ch = '\n'))
    (ha : 0 < a) (hdec : decExp a = some (n, k)) :
    (∃ body, encodeField (stripChars c) = '"' :: (body ++ ['"'])) ∧
    tokenizeLine (writeRow3 (dateChars d) (stripChars c) (renderAmount a))
      = [dateChars d, stripChars c, renderAmount a] ∧
    (add_expense file d c a).1 = AddResult.ok ∧
    load_expenses (some (add_expense file d c a).2)
      = load_expenses (some file) ++ [⟨d, stripChars c, a⟩] := by
  have hna := comma_not_na _ hcomma
  have hq : needsQuote (stripChars c) = true :=
    List.any_eq_true.mpr ⟨',', hcomma, by decide⟩
  refine ⟨⟨escapeQuotes (stripChars c), ?_⟩, ?_, ?_, ?_⟩
  · unfold encodeField
    rw [if_pos (by simp [hq])]
  · exact tokenizeLine_writeRow3 _ _ _ (dateChars_fieldPlain d)
      (renderAmount_fieldPlain a n k ha hdec)
  · exact (add_load_roundtrip file d c a n k hf hd hb hna ha hdec).1
  · exact (add_load_roundtrip file d c a n k hf hd hb hna ha hdec).2.2

/-- Claim C10 witness: the category Food, dining - containing a comma - is
quoted on write and survives the append-then-reload round trip on an empty
store. -/
theorem c10_comma_category_roundtrip_witness :
    (∃ body, encodeField (stripChars (String.data "Food, dining"))
        = '"' :: (body ++ ['"'])) ∧
    tokenizeLine (writeRow3 (dateChars ⟨2024, 1, 15⟩)
        (stripChars (String.data "Food, dining")) (renderAmount (21/2)))
      = [dateChars ⟨2024, 1, 15⟩, stripChars (String.data "Food, dining"),
          renderAmount (21/2)] ∧
    (add_expense [] ⟨2024, 1, 15⟩ (String.data "Food, dining") (21/2)).1 = AddResult.ok ∧
    load_expenses (some (add_expense [] ⟨2024, 1, 15⟩ (String.data "Food, dining") (21/2)).2)
      = load_expenses (some [])
          ++ [⟨⟨2024, 1, 15⟩, stripChars (String.data "Food, dining"), 21/2⟩] :=
  c10_comma_category_roundtrip [] ⟨2024, 1, 15⟩ (String.data "Food, dining") (21/2) 105 1
    (by intro l hl; cases hl) (by decide) (by decide) (by decide) (by decide)
    (by decide) (by decide)
